import Mathlib

/-!
Verification development for the document redaction tool
(`redact_cli.py`, `web_app.py`, `redaction_tool.py`).

The embedding models text as `List Char` and character offsets as `Nat`.
The regular-expression engine used by the detector (`re.finditer` with
`re.IGNORECASE`) is embedded as a backtracking matcher over a small regex
AST covering exactly the constructs used by the predefined patterns:
character classes, concatenation, alternation, bounded/unbounded greedy
repetition, and the word-boundary assertion.
-/

namespace Redact

/-- ASCII lowercasing, as performed by case-insensitive matching. -/
def toLowerC (c : Char) : Char :=
  if 65 ≤ c.toNat ∧ c.toNat ≤ 90 then Char.ofNat (c.toNat + 32) else c

/-- Python whitespace characters (the `\s` class and `str.strip` default). -/
def wsChars : List Char := [' ', '\t', '\n', '\r', Char.ofNat 11, Char.ofNat 12]

def isSpaceC (c : Char) : Bool := wsChars.contains c

/-- Python `str.strip()`: remove leading and trailing whitespace. -/
def stripChars (t : List Char) : List Char :=
  ((t.dropWhile isSpaceC).reverse.dropWhile isSpaceC).reverse

/-- Python `\w` over ASCII: letters, digits, underscore. -/
def isWordC (c : Char) : Bool :=
  decide (97 ≤ (toLowerC c).toNat ∧ (toLowerC c).toNat ≤ 122) ||
  decide (48 ≤ c.toNat ∧ c.toNat ≤ 57) || c == '_'

/-- Whether position `i` of `t` holds a word character (out of range: no). -/
def wordAt (t : List Char) (i : Nat) : Bool := isWordC (t.getD i ' ')

/-- The `\b` assertion at position `i`. -/
def atBoundary (t : List Char) (i : Nat) : Bool :=
  (if i = 0 then false else wordAt t (i - 1)) != wordAt t i

/-- Case-insensitive class membership: classes are stored lowercased. -/
def clsMem (s : List Char) (c : Char) : Bool := s.contains (toLowerC c)

/-- Python `t[s:e]`. -/
def slice (t : List Char) (s e : Nat) : List Char := (t.drop s).take (e - s)

/-- Regex AST: the constructs used by the predefined patterns. -/
inductive RE : Type
  | cls (s : List Char)
  | eps
  | wb
  | seq (a b : RE)
  | alt (a b : RE)
  | rep (lo : Nat) (hi : Option Nat) (r : RE)
deriving DecidableEq

def reSize : RE → Nat
  | .cls _ => 1
  | .eps => 1
  | .wb => 1
  | .seq a b => reSize a + reSize b + 1
  | .alt a b => reSize a + reSize b + 1
  | .rep _ _ r => reSize r + 1

/-- All end positions of a match of `r` starting at position `i` of `t`, in the
priority order of a backtracking engine (greedy repetition, left alternative
first), as Python's `re` explores them.  `fuel` bounds recursion depth; a
repetition body must advance the position once the minimum count is consumed
(Python's engine likewise stops repeating on an empty match).
-/
def ends : Nat → RE → List Char → Nat → List Nat
  | 0, _, _, _ => []
  | _ + 1, .eps, _, i => [i]
  | _ + 1, .wb, t, i => if atBoundary t i then [i] else []
  | _ + 1, .cls s, t, i =>
      if h : i < t.length then
        (if clsMem s (t.get ⟨i, h⟩) then [i + 1] else [])
      else []
  | fuel + 1, .seq a b, t, i =>
      (ends fuel a t i).flatMap (fun j => ends fuel b t j)
  | fuel + 1, .alt a b, t, i => ends fuel a t i ++ ends fuel b t i
  | _ + 1, .rep 0 (some 0) _, _, i => [i]
  | fuel + 1, .rep 0 (some (n + 1)) r, t, i =>
      ((ends fuel r t i).filter (fun j => i < j)).flatMap
        (fun j => ends fuel (.rep 0 (some n) r) t j) ++ [i]
  | fuel + 1, .rep 0 none r, t, i =>
      ((ends fuel r t i).filter (fun j => i < j)).flatMap
        (fun j => ends fuel (.rep 0 none r) t j) ++ [i]
  | fuel + 1, .rep (lo + 1) hi r, t, i =>
      (ends fuel r t i).flatMap
        (fun j => ends fuel (.rep lo (hi.map (· - 1)) r) t j)

/-- Sufficient recursion depth for `ends` on text `t`. -/
def fuelFor (r : RE) (t : List Char) : Nat := (reSize r + 2) * (t.length + 2)

/-- The scan loop of `re.finditer`: try each position left to right; at the first
position where the pattern matches, emit the span and resume at the match end
(or one past it, for an empty match).
-/
def scanRE (r : RE) (t : List Char) : Nat → Nat → List (Nat × Nat)
  | 0, _ => []
  | fuel + 1, i =>
      if i > t.length then []
      else
        match (ends (fuelFor r t) r t i).head? with
        | none => scanRE r t fuel (i + 1)
        | some j => if j ≤ i then (i, j) :: scanRE r t fuel (i + 1)
                    else (i, j) :: scanRE r t fuel j

/-- All non-overlapping matches of `r` in `t`, as `re.finditer` yields them. -/
def findIter (r : RE) (t : List Char) : List (Nat × Nat) :=
  scanRE r t (t.length + 2) 0

/-- Applying `re.escape(term)` followed by a case-insensitive scan matches `term` as a
case-insensitive literal: a sequence of one-character classes.
-/
def termRE (term : List Char) : RE :=
  (term.map (fun c => RE.cls [toLowerC c])).foldr RE.seq RE.eps

/-- One element of the list `find_sensitive_text` returns:
`(match.start(), match.end(), match.group(), category_name)`. -/
structure RMatch where
  s : Nat
  e : Nat
  txt : List Char
  cat : String
deriving DecidableEq

/-- The `SensitiveCategory` of `redact_cli.py` (patterns already embedded). -/
structure SensitiveCategory where
  name : String
  descr : String
  patterns : List RE
  examples : List (List Char)
  enabled : Bool
  use_exact_match : Bool
deriving DecidableEq

/-- Detector state of `redact_cli.py` / `web_app.py`: the insertion-ordered
category dict and the custom term list. -/
structure SensitiveInfoDetector where
  categories : List (String × SensitiveCategory)
  custom_terms : List (List Char)

/-- Embeds `set_custom_terms`: `[t.strip() for t in terms if t.strip()]`. -/
def set_custom_terms (terms : List (List Char)) : List (List Char) :=
  terms.filterMap (fun u => if stripChars u = [] then none else some (stripChars u))

/-- The raw occurrences one enabled category contributes. -/
def catMatches (t : List Char) (c : SensitiveCategory) : List RMatch :=
  if c.enabled then
    c.patterns.flatMap (fun p =>
      (findIter p t).map (fun se => ⟨se.1, se.2, slice t se.1 se.2, c.name⟩))
  else []

/-- The raw occurrences the custom terms contribute. -/
def customMatches (t : List Char) (terms : List (List Char)) : List RMatch :=
  terms.flatMap (fun term =>
    (findIter (termRE term) t).map (fun se => ⟨se.1, se.2, slice t se.1 se.2, "Custom Terms"⟩))

/-- All raw occurrences, in the order the scanning loops append them. -/
def rawMatches (d : SensitiveInfoDetector) (t : List Char) : List RMatch :=
  (d.categories.flatMap (fun kc => catMatches t kc.2)) ++ customMatches t d.custom_terms

/-- The sort key comparison `(start, -(end - start))`, lexicographic. -/
def keyLe (a b : RMatch) : Bool :=
  decide (a.s < b.s) || (decide (a.s = b.s) && decide (b.e - b.s ≤ a.e - a.s))

def keyLt (a b : RMatch) : Bool := keyLe a b && !keyLe b a

/-- Insert into a sorted list after all strictly smaller keys, so that
elements with equal keys keep their original relative order. -/
def insertStable (x : RMatch) : List RMatch → List RMatch
  | [] => [x]
  | y :: ys => if keyLt y x then y :: insertStable x ys else x :: y :: ys

/-- Stable sort by `(start, -(length))`.  Python's `list.sort` is stable, and a
stable sort's output is uniquely determined by the comparison and the input
order, so this insertion sort computes exactly what `matches.sort(key=...)`
computes.
-/
def sortStable : List RMatch → List RMatch
  | [] => []
  | x :: xs => insertStable x (sortStable xs)

/-- The overlap-removal sweep with its `last_end = -1` accumulator. -/
def sweep : List RMatch → Int → List RMatch
  | [], _ => []
  | m :: ms, lastE =>
      if lastE ≤ (m.s : Int) then m :: sweep ms (m.e : Int) else sweep ms lastE

/-- The method `SensitiveInfoDetector.find_sensitive_text` of `redact_cli.py`. -/
def find_sensitive_text (d : SensitiveInfoDetector) (t : List Char) : List RMatch :=
  sweep (sortStable (rawMatches d t)) (-1)

/-! ### The predefined categories of `redact_cli.py` -/

def digitsC : List Char := ['0', '1', '2', '3', '4', '5', '6', '7', '8', '9']

def lettersC : List Char := (List.range 26).map (fun n => Char.ofNat (97 + n))

def rseq (l : List RE) : RE := l.foldr RE.seq RE.eps

def altList : List RE → RE
  | [] => RE.cls []
  | [r] => r
  | r :: rs => RE.alt r (altList rs)

def repn (n : Nat) (r : RE) : RE := RE.rep n (some n) r

def dC : RE := RE.cls digitsC

def rchar (c : Char) : RE := RE.cls [toLowerC c]

/-- Class `[-.\s]`, the optional phone separator class. -/
def sepC : RE := RE.cls ('-' :: '.' :: wsChars)

def wsC : RE := RE.cls wsChars

/-- Pattern `\b\d{3}-\d{2}-\d{4}\b`. -/
def ssnRe1 : RE :=
  rseq [RE.wb, repn 3 dC, rchar '-', repn 2 dC, rchar '-', repn 4 dC, RE.wb]

/-- Pattern `\b\d{9}\b`. -/
def ssnRe2 : RE := rseq [RE.wb, repn 9 dC, RE.wb]

/-- Pattern `\b[A-Za-z0-9._%+-]+@[A-Za-z0-9.-]+\.[A-Z|a-z]{2,}\b` (note the literal
`|` inside the final class). -/
def emailRe : RE :=
  rseq [RE.wb,
    RE.rep 1 none (RE.cls (lettersC ++ digitsC ++ ['.', '_', '%', '+', '-'])),
    rchar '@',
    RE.rep 1 none (RE.cls (lettersC ++ digitsC ++ ['.', '-'])),
    rchar '.',
    RE.rep 2 none (RE.cls (lettersC ++ ['|'])),
    RE.wb]

/-- Pattern `\b\d{3}[-.\s]?\d{3}[-.\s]?\d{4}\b`. -/
def phoneRe1 : RE :=
  rseq [RE.wb, repn 3 dC, RE.rep 0 (some 1) sepC, repn 3 dC,
    RE.rep 0 (some 1) sepC, repn 4 dC, RE.wb]

/-- Pattern `\(\d{3}\)\s*\d{3}[-.\s]?\d{4}\b`. -/
def phoneRe2 : RE :=
  rseq [rchar '(', repn 3 dC, rchar ')', RE.rep 0 none wsC, repn 3 dC,
    RE.rep 0 (some 1) sepC, repn 4 dC, RE.wb]

/-- Pattern `\b(?:\d{4}[-\s]?){3,4}\d{1,4}\b`. -/
def ccRe : RE :=
  rseq [RE.wb,
    RE.rep 3 (some 4) (rseq [repn 4 dC, RE.rep 0 (some 1) (RE.cls ('-' :: wsChars))]),
    RE.rep 1 (some 4) dC, RE.wb]

/-- Pattern `\b\d{1,2}/\d{1,2}/\d{2,4}\b`. -/
def dateRe1 : RE :=
  rseq [RE.wb, RE.rep 1 (some 2) dC, rchar '/', RE.rep 1 (some 2) dC,
    rchar '/', RE.rep 2 (some 4) dC, RE.wb]

/-- Pattern `\b\d{1,2}-\d{1,2}-\d{2,4}\b`. -/
def dateRe2 : RE :=
  rseq [RE.wb, RE.rep 1 (some 2) dC, rchar '-', RE.rep 1 (some 2) dC,
    rchar '-', RE.rep 2 (some 4) dC, RE.wb]

/-- Pattern `\b(?:Jan|...|Dec)[a-z]*\s+\d{1,2},?\s+\d{4}\b`. -/
def dateRe3 : RE :=
  rseq [RE.wb,
    altList [termRE "jan".data, termRE "feb".data, termRE "mar".data,
      termRE "apr".data, termRE "may".data, termRE "jun".data,
      termRE "jul".data, termRE "aug".data, termRE "sep".data,
      termRE "oct".data, termRE "nov".data, termRE "dec".data],
    RE.rep 0 none (RE.cls lettersC),
    RE.rep 1 none wsC,
    RE.rep 1 (some 2) dC,
    RE.rep 0 (some 1) (rchar ','),
    RE.rep 1 none wsC,
    repn 4 dC, RE.wb]

def ssnCat : SensitiveCategory :=
  ⟨"Social Security Numbers", "US Social Security Numbers (XXX-XX-XXXX format)",
    [ssnRe1, ssnRe2], ["123-45-6789".data], true, false⟩

def emailCat : SensitiveCategory :=
  ⟨"Email Addresses", "Email addresses", [emailRe], ["example@email.com".data], true, false⟩

def phoneCat : SensitiveCategory :=
  ⟨"Phone Numbers", "US phone numbers in various formats",
    [phoneRe1, phoneRe2], ["555-123-4567".data, "(555) 123-4567".data], true, false⟩

def ccCat : SensitiveCategory :=
  ⟨"Credit Card Numbers", "Credit card numbers (13-19 digits)",
    [ccRe], ["4111-1111-1111-1111".data], true, false⟩

def dateCat : SensitiveCategory :=
  ⟨"Dates", "Dates in various formats",
    [dateRe1, dateRe2, dateRe3], ["01/15/2024".data, "January 15, 2024".data], true, false⟩

/-- The dict `PREDEFINED_CATEGORIES` of `redact_cli.py`, in dict insertion order. -/
def predefinedCli : List (String × SensitiveCategory) :=
  [("ssn", ssnCat), ("email", emailCat), ("phone", phoneCat),
   ("creditcard", ccCat), ("date", dateCat)]

/-- The detector the CLI builds for `--categories all` with no custom terms. -/
def allCatsDetector : SensitiveInfoDetector := ⟨predefinedCli, []⟩

/-! ### The GUI detector (`redaction_tool.py`): custom terms live inside a
category flagged `use_exact_match` instead of a separate list. -/

/-- Raw occurrences of one category in `redaction_tool.py`: patterns, then
(for `use_exact_match` categories) the non-blank examples as literals. -/
def catMatchesGui (t : List Char) (c : SensitiveCategory) : List RMatch :=
  if c.enabled then
    c.patterns.flatMap (fun p =>
      (findIter p t).map (fun se => ⟨se.1, se.2, slice t se.1 se.2, c.name⟩)) ++
    (if c.use_exact_match then
      (c.examples.filter (fun ex => stripChars ex ≠ [])).flatMap (fun ex =>
        (findIter (termRE ex) t).map (fun se => ⟨se.1, se.2, slice t se.1 se.2, c.name⟩))
     else [])
  else []

/-- The method `SensitiveInfoDetector.find_sensitive_text` of `redaction_tool.py`. -/
def find_gui (cats : List (String × SensitiveCategory)) (t : List Char) : List RMatch :=
  sweep (sortStable (cats.flatMap (fun kc => catMatchesGui t kc.2))) (-1)

/-! ### PDF applier model

A page is its structured text (`get_text("dict")`: blocks → lines → spans)
together with the opaque `page.search_for` lookup, which returns the list of
bounding regions (modelled as opaque ids) of a literal string on the page.
Annotation and fill application are external `fitz` effects; the claims are
about the statistics dictionary -/

structure PdfSpan where
  text : List Char

structure PdfLine where
  spans : List PdfSpan

structure PdfBlock where
  btype : Nat
  lines : List PdfLine

structure PdfPage where
  blocks : List PdfBlock
  searchFor : List Char → List Nat

structure PdfStats where
  pages : Nat
  redactions : Nat
  categories : List (String × Nat)
deriving DecidableEq

/-- The update `stats["categories"][category] = stats["categories"].get(category, 0) + 1`
on an insertion-ordered dict. -/
def bump : List (String × Nat) → String → List (String × Nat)
  | [], k => [(k, 1)]
  | (k', n) :: rest, k =>
      if k' = k then (k', n + 1) :: rest else (k', n) :: bump rest k

/-- Lookup `stats["categories"].get(k, 0)`. -/
def catGet : List (String × Nat) → String → Nat
  | [], _ => 0
  | (k', n) :: rest, k => if k' = k then n else catGet rest k

/-- The body of `for inst in instances:` — one region marked, both counters
incremented once per region. -/
def pdfInstStep (cat : String) (st : PdfStats) : PdfStats :=
  ⟨st.pages, st.redactions + 1, bump st.categories cat⟩

/-- The body of `for start, end, matched_text, category in matches:`. -/
def pdfMatchStep (page : PdfPage) (st : PdfStats) (m : RMatch) : PdfStats :=
  (page.searchFor m.txt).foldl (fun st _ => pdfInstStep m.cat st) st

def pdfSpanStep (d : SensitiveInfoDetector) (page : PdfPage) (st : PdfStats)
    (sp : PdfSpan) : PdfStats :=
  if sp.text = [] then st
  else (find_sensitive_text d sp.text).foldl (pdfMatchStep page) st

def pdfLineStep (d : SensitiveInfoDetector) (page : PdfPage) (st : PdfStats)
    (ln : PdfLine) : PdfStats :=
  ln.spans.foldl (pdfSpanStep d page) st

def pdfBlockStep (d : SensitiveInfoDetector) (page : PdfPage) (st : PdfStats)
    (b : PdfBlock) : PdfStats :=
  if b.btype ≠ 0 then st else b.lines.foldl (pdfLineStep d page) st

def pdfPageStep (d : SensitiveInfoDetector) (st : PdfStats) (page : PdfPage) : PdfStats :=
  page.blocks.foldl (pdfBlockStep d page) ⟨st.pages + 1, st.redactions, st.categories⟩

/-- Function `redact_pdf` of `redact_cli.py` / `web_app.py`: the statistics it returns. -/
def redact_pdf (d : SensitiveInfoDetector) (doc : List PdfPage) : PdfStats :=
  doc.foldl (pdfPageStep d) ⟨0, 0, []⟩

/-! ### DOCX applier model -/

structure RunFont where
  fname : Option String
  size : Option Nat
  bold : Option Bool
  italic : Option Bool
deriving DecidableEq

structure DocxRun where
  text : List Char
  font : RunFont
deriving DecidableEq

structure DocxPara where
  runs : List DocxRun
deriving DecidableEq

/-- Property `para.text`: the concatenation of the run texts. -/
def paraText (p : DocxPara) : List Char := (p.runs.map DocxRun.text).flatten

structure DocxCell where
  paragraphs : List DocxPara
deriving DecidableEq

structure DocxRow where
  cells : List DocxCell
deriving DecidableEq

structure DocxTable where
  rows : List DocxRow
deriving DecidableEq

/-- A section's six header/footer paragraph streams (python-docx exposes all
six; each is a possibly empty paragraph list). -/
structure DocxSection where
  header : List DocxPara
  first_page_header : List DocxPara
  even_page_header : List DocxPara
  footer : List DocxPara
  first_page_footer : List DocxPara
  even_page_footer : List DocxPara
deriving DecidableEq

structure DocxDoc where
  paragraphs : List DocxPara
  tables : List DocxTable
  sections : List DocxSection
deriving DecidableEq

structure DocxStats where
  paragraphs : Nat
  redactions : Nat
  categories : List (String × Nat)
deriving DecidableEq

/-- Replace positions `[s, e)` with the block glyph: carry the absolute index. -/
def maskFrom (s e : Nat) : Nat → List Char → List Char
  | _, [] => []
  | i, c :: cs => (if s ≤ i ∧ i < e then '█' else c) :: maskFrom s e (i + 1) cs

/-- The loop `for i in range(start, end): new_text[i] = "█"`. -/
def maskRange (t : List Char) (s e : Nat) : List Char := maskFrom s e 0 t

/-- Builds `new_text` after the per-match replacement loop. -/
def redactText (t : List Char) (ms : List RMatch) : List Char :=
  ms.foldl (fun acc m => maskRange acc m.s m.e) t

/-- Embeds `process_paragraph` (identical in `redact_cli.py`, `web_app.py` and
`redaction_tool.py`), parameterized by the detector's find function: rewrite
the paragraph and update the statistics.
-/
def paraStep (find : List Char → List RMatch) (p : DocxPara) (st : DocxStats) :
    DocxPara × DocxStats :=
  let fullText := paraText p
  if fullText = [] then (p, st)
  else
    let ms := find fullText
    if ms = [] then (p, st)
    else
      let newText := redactText fullText ms
      let st' := ms.foldl
        (fun s m => ⟨s.paragraphs, s.redactions + 1, bump s.categories m.cat⟩) st
      match p.runs with
      | [] => (p, st')
      | r0 :: rs => (⟨⟨newText, r0.font⟩ :: rs.map (fun r => ⟨[], r.font⟩)⟩, st')

/-- A paragraph stream: count each paragraph, then process it. -/
def processParas (find : List Char → List RMatch) :
    List DocxPara → DocxStats → List DocxPara × DocxStats
  | [], st => ([], st)
  | p :: rest, st =>
      let pr := paraStep find p ⟨st.paragraphs + 1, st.redactions, st.categories⟩
      let rr := processParas find rest pr.2
      (pr.1 :: rr.1, rr.2)

def processCells (find : List Char → List RMatch) :
    List DocxCell → DocxStats → List DocxCell × DocxStats
  | [], st => ([], st)
  | c :: rest, st =>
      let pr := processParas find c.paragraphs st
      let rr := processCells find rest pr.2
      (⟨pr.1⟩ :: rr.1, rr.2)

def processRows (find : List Char → List RMatch) :
    List DocxRow → DocxStats → List DocxRow × DocxStats
  | [], st => ([], st)
  | r :: rest, st =>
      let pr := processCells find r.cells st
      let rr := processRows find rest pr.2
      (⟨pr.1⟩ :: rr.1, rr.2)

def processTables (find : List Char → List RMatch) :
    List DocxTable → DocxStats → List DocxTable × DocxStats
  | [], st => ([], st)
  | tb :: rest, st =>
      let pr := processRows find tb.rows st
      let rr := processTables find rest pr.2
      (⟨pr.1⟩ :: rr.1, rr.2)

/-- Function `redact_docx` of `redact_cli.py` / `web_app.py`: body paragraphs, then
table-cell paragraphs.  Sections (headers/footers) are never visited. -/
def redact_docx (d : SensitiveInfoDetector) (doc : DocxDoc) : DocxDoc × DocxStats :=
  let f := find_sensitive_text d
  let body := processParas f doc.paragraphs ⟨0, 0, []⟩
  let tbls := processTables f doc.tables body.2
  (⟨body.1, tbls.1, doc.sections⟩, tbls.2)

/-- One section of `WordRedactor.redact`: the three headers, then the three
footers (python-docx header/footer objects are always truthy, so the
`if header:` guards always pass). -/
def processSection (find : List Char → List RMatch) (sec : DocxSection)
    (st : DocxStats) : DocxSection × DocxStats :=
  let h1 := processParas find sec.header st
  let h2 := processParas find sec.first_page_header h1.2
  let h3 := processParas find sec.even_page_header h2.2
  let f1 := processParas find sec.footer h3.2
  let f2 := processParas find sec.first_page_footer f1.2
  let f3 := processParas find sec.even_page_footer f2.2
  (⟨h1.1, h2.1, h3.1, f1.1, f2.1, f3.1⟩, f3.2)

def processSections (find : List Char → List RMatch) :
    List DocxSection → DocxStats → List DocxSection × DocxStats
  | [], st => ([], st)
  | sec :: rest, st =>
      let pr := processSection find sec st
      let rr := processSections find rest pr.2
      (pr.1 :: rr.1, rr.2)

/-- Method `WordRedactor.redact` of `redaction_tool.py`: body paragraphs, table-cell
paragraphs, then every section's headers and footers. -/
def word_redact (cats : List (String × SensitiveCategory)) (doc : DocxDoc) :
    DocxDoc × DocxStats :=
  let f := find_gui cats
  let body := processParas f doc.paragraphs ⟨0, 0, []⟩
  let tbls := processTables f doc.tables body.2
  let secs := processSections f doc.sections tbls.2
  (⟨body.1, tbls.1, secs.1⟩, secs.2)

/-! ### Derived specification-side quantities used by the claim statements -/

/-- Characters a regex can consume: the union of its character classes. -/
def okChar : RE → Char → Bool
  | .cls s, c => clsMem s c
  | .eps, _ => false
  | .wb, _ => false
  | .seq a b, c => okChar a c || okChar b c
  | .alt a b, c => okChar a c || okChar b c
  | .rep _ _ r, c => okChar r c

/-- Every regex a detector scans with: enabled categories' patterns, then the
custom terms as literal regexes. -/
def detPatterns (d : SensitiveInfoDetector) : List RE :=
  d.categories.flatMap (fun kc => if kc.2.enabled then kc.2.patterns else []) ++
  d.custom_terms.map termRE

/-- Computes `sum(stats["categories"].values())`. -/
def catSum (l : List (String × Nat)) : Nat := (l.map (fun p => p.2)).sum

/-- Two half-open spans intersect. -/
def overlapB (s1 e1 s2 e2 : Nat) : Bool := decide (max s1 s2 < min e1 e2)

/-- Regions marked for one text span: one page search per detector match. -/
def spanRegionCount (d : SensitiveInfoDetector) (page : PdfPage) (sp : PdfSpan) : Nat :=
  if sp.text = [] then 0
  else ((find_sensitive_text d sp.text).map (fun m => (page.searchFor m.txt).length)).sum

def lineRegionCount (d : SensitiveInfoDetector) (page : PdfPage) (ln : PdfLine) : Nat :=
  (ln.spans.map (spanRegionCount d page)).sum

def blockRegionCount (d : SensitiveInfoDetector) (page : PdfPage) (b : PdfBlock) : Nat :=
  if b.btype ≠ 0 then 0 else (b.lines.map (lineRegionCount d page)).sum

def pageRegionCount (d : SensitiveInfoDetector) (page : PdfPage) : Nat :=
  (page.blocks.map (blockRegionCount d page)).sum

def docRegionCount (d : SensitiveInfoDetector) (doc : List PdfPage) : Nat :=
  (doc.map (pageRegionCount d)).sum

/-- Same, restricted to matches of one category. -/
def spanRegionCountCat (d : SensitiveInfoDetector) (page : PdfPage) (sp : PdfSpan)
    (c : String) : Nat :=
  if sp.text = [] then 0
  else (((find_sensitive_text d sp.text).filter (fun m => decide (m.cat = c))).map
    (fun m => (page.searchFor m.txt).length)).sum

def lineRegionCountCat (d : SensitiveInfoDetector) (page : PdfPage) (ln : PdfLine)
    (c : String) : Nat :=
  (ln.spans.map (fun sp => spanRegionCountCat d page sp c)).sum

def blockRegionCountCat (d : SensitiveInfoDetector) (page : PdfPage) (b : PdfBlock)
    (c : String) : Nat :=
  if b.btype ≠ 0 then 0 else (b.lines.map (fun ln => lineRegionCountCat d page ln c)).sum

def pageRegionCountCat (d : SensitiveInfoDetector) (page : PdfPage) (c : String) : Nat :=
  (page.blocks.map (fun b => blockRegionCountCat d page b c)).sum

def docRegionCountCat (d : SensitiveInfoDetector) (doc : List PdfPage) (c : String) : Nat :=
  (doc.map (fun p => pageRegionCountCat d p c)).sum

/-- Paragraphs inside a list of tables (by rows, then cells). -/
def tablesParaCount (ts : List DocxTable) : Nat :=
  (ts.map (fun tb => (tb.rows.map (fun r =>
    (r.cells.map (fun c => c.paragraphs.length)).sum)).sum)).sum

/-- Paragraphs inside a list of sections' headers and footers. -/
def sectionsParaCount (ss : List DocxSection) : Nat :=
  (ss.map (fun sec =>
    sec.header.length + sec.first_page_header.length + sec.even_page_header.length +
    sec.footer.length + sec.first_page_footer.length + sec.even_page_footer.length)).sum

/-! ### Concrete example data used by counterexamples and witnesses -/

/-- A one-page document whose single span holds an SSN, on a page where the
page-level literal search finds two visual regions for it. -/
def pageTwoRegions : PdfPage :=
  ⟨[⟨0, [⟨[⟨"123-45-6789".data⟩]⟩]⟩], fun _ => [0, 1]⟩

def ssnDetector : SensitiveInfoDetector := ⟨[("ssn", ssnCat)], []⟩

/-- Two distinct categories whose patterns produce raw occurrences with the
same start offset and the same length on the text `"ab"`. -/
def catTieA : SensitiveCategory := ⟨"A", "", [termRE "ab".data], [], true, false⟩

def catTieB : SensitiveCategory := ⟨"B", "", [termRE "ab".data], [], true, false⟩

def emptyFont : RunFont := ⟨none, none, none, none⟩

/-- A document that is empty except for one SSN paragraph in the first
section's primary header. -/
def headerOnlyDoc : DocxDoc :=
  ⟨[], [], [⟨[⟨[⟨"123-45-6789".data, emptyFont⟩]⟩], [], [], [], [], []⟩]⟩

/-! ## Lemmas about the matcher -/

/-- A match never ends before it starts. -/
theorem ends_ge : ∀ (fuel : Nat) (r : RE) (t : List Char) (i j : Nat),
    j ∈ ends fuel r t i → i ≤ j := by
  intro fuel
  induction fuel with
  | zero => intro r t i j h; simp [ends] at h
  | succ fuel ih =>
    intro r t i j h
    cases r with
    | eps => simp [ends] at h; omega
    | wb =>
      simp only [ends] at h
      split at h
      · simp at h; omega
      · simp at h
    | cls s =>
      simp only [ends] at h
      split at h
      · split at h
        · simp at h; omega
        · simp at h
      · simp at h
    | seq a b =>
      simp only [ends, List.mem_flatMap] at h
      obtain ⟨k, hk, hj⟩ := h
      exact Nat.le_trans (ih a t i k hk) (ih b t k j hj)
    | alt a b =>
      simp only [ends, List.mem_append] at h
      rcases h with h | h
      · exact ih a t i j h
      · exact ih b t i j h
    | rep lo hi r' =>
      cases lo with
      | zero =>
        cases hi with
        | none =>
          simp only [ends, List.mem_append, List.mem_flatMap, List.mem_filter,
            decide_eq_true_eq] at h
          rcases h with ⟨k, ⟨_, hik⟩, hj⟩ | h
          · have := ih _ t k j hj; omega
          · simp at h; omega
        | some n =>
          cases n with
          | zero => simp [ends] at h; omega
          | succ n =>
            simp only [ends, List.mem_append, List.mem_flatMap, List.mem_filter,
              decide_eq_true_eq] at h
            rcases h with ⟨k, ⟨_, hik⟩, hj⟩ | h
            · have := ih _ t k j hj; omega
            · simp at h; omega
      | succ lo =>
        simp only [ends, List.mem_flatMap] at h
        obtain ⟨k, hk, hj⟩ := h
        exact Nat.le_trans (ih r' t i k hk) (ih _ t k j hj)

/-- A match starting inside the text ends inside the text. -/
theorem ends_le : ∀ (fuel : Nat) (r : RE) (t : List Char) (i j : Nat),
    j ∈ ends fuel r t i → i ≤ t.length → j ≤ t.length := by
  intro fuel
  induction fuel with
  | zero => intro r t i j h; simp [ends] at h
  | succ fuel ih =>
    intro r t i j h hti
    cases r with
    | eps => simp [ends] at h; omega
    | wb =>
      simp only [ends] at h
      split at h
      · simp at h; omega
      · simp at h
    | cls s =>
      simp only [ends] at h
      split at h
      · split at h
        · simp at h; omega
        · simp at h
      · simp at h
    | seq a b =>
      simp only [ends, List.mem_flatMap] at h
      obtain ⟨k, hk, hj⟩ := h
      exact ih b t k j hj (ih a t i k hk hti)
    | alt a b =>
      simp only [ends, List.mem_append] at h
      rcases h with h | h
      · exact ih a t i j h hti
      · exact ih b t i j h hti
    | rep lo hi r' =>
      cases lo with
      | zero =>
        cases hi with
        | none =>
          simp only [ends, List.mem_append, List.mem_flatMap, List.mem_filter,
            decide_eq_true_eq] at h
          rcases h with ⟨k, ⟨hk, _⟩, hj⟩ | h
          · exact ih _ t k j hj (ih r' t i k hk hti)
          · simp at h; omega
        | some n =>
          cases n with
          | zero => simp [ends] at h; omega
          | succ n =>
            simp only [ends, List.mem_append, List.mem_flatMap, List.mem_filter,
              decide_eq_true_eq] at h
            rcases h with ⟨k, ⟨hk, _⟩, hj⟩ | h
            · exact ih _ t k j hj (ih r' t i k hk hti)
            · simp at h; omega
      | succ lo =>
        simp only [ends, List.mem_flatMap] at h
        obtain ⟨k, hk, hj⟩ := h
        exact ih _ t k j hj (ih r' t i k hk hti)

/-- Every character a match consumes lies in one of the regex's classes. -/
theorem ends_consumed : ∀ (fuel : Nat) (r : RE) (t : List Char) (i j : Nat),
    j ∈ ends fuel r t i → ∀ p, i ≤ p → p < j → okChar r (t.getD p ' ') = true := by
  intro fuel
  induction fuel with
  | zero => intro r t i j h; simp [ends] at h
  | succ fuel ih =>
    intro r t i j h p hip hpj
    cases r with
    | eps => simp [ends] at h; omega
    | wb =>
      simp only [ends] at h
      split at h
      · simp at h; omega
      · simp at h
    | cls s =>
      simp only [ends] at h
      split at h
      · rename_i hlen
        split at h
        · rename_i hcls
          simp at h
          have hpi : p = i := by omega
          subst hpi
          rw [List.getD_eq_getElem _ _ hlen]
          simpa [okChar, List.get_eq_getElem] using hcls
        · simp at h
      · simp at h
    | seq a b =>
      simp only [ends, List.mem_flatMap] at h
      obtain ⟨k, hk, hj⟩ := h
      simp only [okChar, Bool.or_eq_true]
      by_cases hpk : p < k
      · exact Or.inl (ih a t i k hk p hip hpk)
      · exact Or.inr (ih b t k j hj p (by omega) hpj)
    | alt a b =>
      simp only [ends, List.mem_append] at h
      simp only [okChar, Bool.or_eq_true]
      rcases h with h | h
      · exact Or.inl (ih a t i j h p hip hpj)
      · exact Or.inr (ih b t i j h p hip hpj)
    | rep lo hi r' =>
      cases lo with
      | zero =>
        cases hi with
        | none =>
          simp only [ends, List.mem_append, List.mem_flatMap, List.mem_filter,
            decide_eq_true_eq] at h
          rcases h with ⟨k, ⟨hk, _⟩, hj⟩ | h
          · simp only [okChar]
            by_cases hpk : p < k
            · exact ih r' t i k hk p hip hpk
            · simpa [okChar] using ih _ t k j hj p (by omega) hpj
          · simp at h; omega
        | some n =>
          cases n with
          | zero => simp [ends] at h; omega
          | succ n =>
            simp only [ends, List.mem_append, List.mem_flatMap, List.mem_filter,
              decide_eq_true_eq] at h
            rcases h with ⟨k, ⟨hk, _⟩, hj⟩ | h
            · simp only [okChar]
              by_cases hpk : p < k
              · exact ih r' t i k hk p hip hpk
              · simpa [okChar] using ih _ t k j hj p (by omega) hpj
            · simp at h; omega
      | succ lo =>
        simp only [ends, List.mem_flatMap] at h
        obtain ⟨k, hk, hj⟩ := h
        simp only [okChar]
        by_cases hpk : p < k
        · exact ih r' t i k hk p hip hpk
        · simpa [okChar] using ih _ t k j hj p (by omega) hpj

/-- Spans emitted by the scan loop are genuine matches starting to the right
of the scan position, inside the text. -/
theorem scanRE_spec (r : RE) (t : List Char) :
    ∀ (fuel i s e : Nat), (s, e) ∈ scanRE r t fuel i →
      e ∈ ends (fuelFor r t) r t s ∧ i ≤ s ∧ s ≤ t.length := by
  intro fuel
  induction fuel with
  | zero => intro i s e h; simp [scanRE] at h
  | succ fuel ih =>
    intro i s e h
    rw [scanRE] at h
    by_cases hgt : i > t.length
    · rw [if_pos hgt] at h; simp at h
    · rw [if_neg hgt] at h
      cases hL : ends (fuelFor r t) r t i with
      | nil =>
        rw [hL] at h
        simp only [List.head?_nil] at h
        have := ih (i + 1) s e h
        exact ⟨this.1, by omega, this.2.2⟩
      | cons j js =>
        rw [hL] at h
        simp only [List.head?_cons] at h
        have hjE : j ∈ ends (fuelFor r t) r t i := by
          rw [hL]; exact List.mem_cons_self j js
        by_cases hji : j ≤ i
        · rw [if_pos hji] at h
          rcases List.mem_cons.mp h with heq | h
          · have hs : s = i := congrArg Prod.fst heq
            have he : e = j := congrArg Prod.snd heq
            subst hs; subst he
            exact ⟨hjE, Nat.le_refl _, by omega⟩
          · have := ih (i + 1) s e h
            exact ⟨this.1, by omega, this.2.2⟩
        · rw [if_neg hji] at h
          rcases List.mem_cons.mp h with heq | h
          · have hs : s = i := congrArg Prod.fst heq
            have he : e = j := congrArg Prod.snd heq
            subst hs; subst he
            exact ⟨hjE, Nat.le_refl _, by omega⟩
          · have := ih j s e h
            have hij : i ≤ j := ends_ge _ r t i j hjE
            exact ⟨this.1, by omega, this.2.2⟩

/-- Characterization of the spans `findIter` yields. -/
theorem findIter_spec (r : RE) (t : List Char) (s e : Nat) :
    (s, e) ∈ findIter r t →
      e ∈ ends (fuelFor r t) r t s ∧ s ≤ t.length := by
  intro h
  have := scanRE_spec r t (t.length + 2) 0 s e h
  exact ⟨this.1, this.2.2⟩

/-- Every raw occurrence reports the exact slice of the scanned text, lies
inside the text, and consumes only characters of one of the detector's
patterns. -/
theorem rawMatches_spec (d : SensitiveInfoDetector) (t : List Char) (m : RMatch) :
    m ∈ rawMatches d t →
      m.txt = slice t m.s m.e ∧ m.s ≤ m.e ∧ m.e ≤ t.length ∧
      ∃ r ∈ detPatterns d, ∀ p, m.s ≤ p → p < m.e → okChar r (t.getD p ' ') = true := by
  intro h
  rw [rawMatches, List.mem_append] at h
  rcases h with h | h
  · rw [List.mem_flatMap] at h
    obtain ⟨kc, hkc, hm⟩ := h
    rw [catMatches] at hm
    split at hm
    · rename_i hen
      rw [List.mem_flatMap] at hm
      obtain ⟨p, hp, hm⟩ := hm
      rw [List.mem_map] at hm
      obtain ⟨se, hse, rfl⟩ := hm
      obtain ⟨hE, hsle⟩ := findIter_spec p t se.1 se.2 hse
      refine ⟨rfl, ends_ge _ _ _ _ _ hE, ends_le _ _ _ _ _ hE hsle, p, ?_, ?_⟩
      · rw [detPatterns, List.mem_append]
        left
        rw [List.mem_flatMap]
        exact ⟨kc, hkc, by rw [if_pos hen]; exact hp⟩
      · intro q h1 h2
        exact ends_consumed _ _ _ _ _ hE q h1 h2
    · simp at hm
  · rw [customMatches, List.mem_flatMap] at h
    obtain ⟨term, hterm, hm⟩ := h
    rw [List.mem_map] at hm
    obtain ⟨se, hse, rfl⟩ := hm
    obtain ⟨hE, hsle⟩ := findIter_spec _ t se.1 se.2 hse
    refine ⟨rfl, ends_ge _ _ _ _ _ hE, ends_le _ _ _ _ _ hE hsle, termRE term, ?_, ?_⟩
    · rw [detPatterns, List.mem_append]
      right
      exact List.mem_map_of_mem termRE hterm
    · intro q h1 h2
      exact ends_consumed _ _ _ _ _ hE q h1 h2

theorem mem_insertStable (x m : RMatch) : ∀ l, m ∈ insertStable x l ↔ m = x ∨ m ∈ l := by
  intro l
  induction l with
  | nil => simp [insertStable]
  | cons y ys ih =>
    rw [insertStable]
    split
    · simp only [List.mem_cons, ih]
      tauto
    · simp only [List.mem_cons]

theorem mem_sortStable (m : RMatch) : ∀ l, m ∈ sortStable l ↔ m ∈ l := by
  intro l
  induction l with
  | nil => simp [sortStable]
  | cons x xs ih =>
    rw [sortStable, mem_insertStable]
    simp [ih]

theorem sweep_subset (m : RMatch) : ∀ (l : List RMatch) (z : Int), m ∈ sweep l z → m ∈ l := by
  intro l
  induction l with
  | nil => intro z h; simp [sweep] at h
  | cons a l ih =>
    intro z h
    rw [sweep] at h
    split at h
    · rcases List.mem_cons.mp h with rfl | h
      · exact List.mem_cons_self _ _
      · exact List.mem_cons_of_mem _ (ih _ h)
    · exact List.mem_cons_of_mem _ (ih _ h)

/-- Every returned match is one of the raw occurrences. -/
theorem find_subset (d : SensitiveInfoDetector) (t : List Char) (m : RMatch) :
    m ∈ find_sensitive_text d t → m ∈ rawMatches d t := by
  intro h
  rw [find_sensitive_text] at h
  exact (mem_sortStable m _).mp (sweep_subset m _ _ h)

theorem sweep_head_ge : ∀ (l : List RMatch) (z : Int) (m : RMatch),
    (sweep l z).head? = some m → z ≤ (m.s : Int) := by
  intro l
  induction l with
  | nil => intro z m h; simp [sweep] at h
  | cons a l ih =>
    intro z m h
    rw [sweep] at h
    split at h
    · rename_i hz
      rw [List.head?_cons, Option.some.injEq] at h
      subst h; exact hz
    · exact ih z m h

/-- The sweep's output never lets a match begin before the previous one ends. -/
theorem sweep_chain : ∀ (l : List RMatch) (z : Int),
    List.Chain' (fun a b => a.e ≤ b.s) (sweep l z) := by
  intro l
  induction l with
  | nil => intro z; simp [sweep]
  | cons a l ih =>
    intro z
    rw [sweep]
    split
    · rw [List.chain'_cons']
      refine ⟨?_, ih _⟩
      intro b hb
      have hh : (sweep l (a.e : Int)).head? = some b := hb
      have := sweep_head_ge l (a.e : Int) b hh
      exact_mod_cast this
    · exact ih _

theorem chain_strengthen : ∀ (l : List RMatch),
    List.Chain' (fun a b => a.e ≤ b.s) l → (∀ m ∈ l, m.s ≤ m.e) →
    List.Chain' (fun a b => a.e ≤ b.s ∧ a.s ≤ b.s) l := by
  intro l
  induction l with
  | nil => intro _ _; simp
  | cons a l ih =>
    intro hc hall
    rw [List.chain'_cons'] at hc ⊢
    refine ⟨?_, ih hc.2 (fun m hm => hall m (List.mem_cons_of_mem _ hm))⟩
    intro b hb
    have h1 := hc.1 b hb
    have h2 : a.s ≤ a.e := hall a (List.mem_cons_self _ _)
    exact ⟨h1, Nat.le_trans h2 h1⟩

/-- C2: for every input text and every category/custom-term configuration,
the list `find_sensitive_text` returns is sorted by ascending start offset
and non-overlapping: each adjacent pair satisfies `end[i] ≤ start[i+1]` (and
hence `start[i] ≤ start[i+1]`). -/
theorem c2_nonoverlap : ∀ (d : SensitiveInfoDetector) (t : List Char),
    List.Chain' (fun a b => a.e ≤ b.s ∧ a.s ≤ b.s) (find_sensitive_text d t) := by
  intro d t
  apply chain_strengthen
  · rw [find_sensitive_text]
    exact sweep_chain _ _
  · intro m hm
    exact (rawMatches_spec d t m (find_subset d t m hm)).2.1

/-- C9: every tuple `(start, end, matched_text, category)` that
`find_sensitive_text` returns satisfies `matched_text = text[start:end]`. -/
theorem c9_group_is_slice : ∀ (d : SensitiveInfoDetector) (t : List Char),
    (find_sensitive_text d t).all (fun m => decide (m.txt = slice t m.s m.e)) = true := by
  intro d t
  rw [List.all_eq_true]
  intro m hm
  rw [decide_eq_true_eq]
  exact (rawMatches_spec d t m (find_subset d t m hm)).1

/-! ## Generic accumulation lemmas for the appliers -/

theorem foldl_measure {σ α : Type} (f : σ → α → σ) (μ : σ → Nat) (g : α → Nat)
    (hf : ∀ s a, μ (f s a) = μ s + g a) :
    ∀ (l : List α) (s : σ), μ (l.foldl f s) = μ s + (l.map g).sum := by
  intro l
  induction l with
  | nil => intro s; simp
  | cons a l ih =>
    intro s
    rw [List.foldl_cons, ih, hf, List.map_cons, List.sum_cons]
    omega

theorem foldl_inv {σ α : Type} (f : σ → α → σ) (Inv : σ → Prop)
    (hf : ∀ s a, Inv s → Inv (f s a)) :
    ∀ (l : List α) (s : σ), Inv s → Inv (l.foldl f s) := by
  intro l
  induction l with
  | nil => intro s h; simpa using h
  | cons a l ih =>
    intro s h
    rw [List.foldl_cons]
    exact ih _ (hf s a h)

theorem sum_map_const {α : Type} (l : List α) (k : Nat) :
    (l.map (fun _ => k)).sum = l.length * k := by
  induction l with
  | nil => simp
  | cons a l ih =>
    rw [List.map_cons, List.sum_cons, ih, List.length_cons, Nat.succ_mul]
    omega

theorem sum_filter_ite {α : Type} (p : α → Bool) (f : α → Nat) :
    ∀ (l : List α), ((l.filter p).map f).sum = (l.map (fun a => if p a then f a else 0)).sum := by
  intro l
  induction l with
  | nil => simp
  | cons a l ih =>
    rw [List.filter_cons, List.map_cons, List.sum_cons]
    by_cases hp : p a
    · rw [if_pos hp, if_pos hp, List.map_cons, List.sum_cons, ih]
    · rw [if_neg hp, if_neg hp, ih]
      omega

theorem catGet_bump : ∀ (l : List (String × Nat)) (k c : String),
    catGet (bump l k) c = catGet l c + (if k = c then 1 else 0) := by
  intro l
  induction l with
  | nil =>
    intro k c
    by_cases hkc : k = c
    · simp [bump, catGet, hkc]
    · simp [bump, catGet, hkc]
  | cons p l ih =>
    intro k c
    obtain ⟨k', n⟩ := p
    rw [bump]
    by_cases hk : k' = k
    · rw [if_pos hk]
      subst hk
      by_cases hc : k' = c
      · subst hc; simp [catGet]
      · simp [catGet, hc]
    · rw [if_neg hk]
      by_cases hc : k' = c
      · subst hc
        have hkc : ¬ k = k' := fun h => hk h.symm
        simp [catGet, hkc]
      · simp [catGet, hc, ih]

theorem catSum_bump : ∀ (l : List (String × Nat)) (k : String),
    catSum (bump l k) = catSum l + 1 := by
  intro l
  induction l with
  | nil => intro k; simp [bump, catSum]
  | cons p l ih =>
    intro k
    obtain ⟨k', n⟩ := p
    rw [bump]
    by_cases hk : k' = k
    · rw [if_pos hk]
      simp [catSum]
      omega
    · rw [if_neg hk]
      simp only [catSum, List.map_cons, List.sum_cons] at ih ⊢
      rw [ih]
      omega

/-! ## C6 and the concrete counterexamples -/

/-- C6: on `"123-45-6789"` with the SSN category enabled and custom term
`"123-45"`, the 11-character SSN match is returned and the 6-character
custom-term occurrence, which starts at the same offset and is present among
the raw occurrences, is discarded. -/
theorem c6_longest_at_tie :
    find_sensitive_text ⟨[("ssn", ssnCat)], set_custom_terms ["123-45".data]⟩
        "123-45-6789".data =
      [⟨0, 11, "123-45-6789".data, "Social Security Numbers"⟩] ∧
    (⟨0, 6, "123-45".data, "Custom Terms"⟩ : RMatch) ∈
      rawMatches ⟨[("ssn", ssnCat)], set_custom_terms ["123-45".data]⟩
        "123-45-6789".data := by
  constructor
  · decide
  · decide

/-- C1 counterexample: a one-page document whose single span yields exactly
one detector match, on a page where the literal search reports two bounding
regions; the redaction counter and the per-category counter both reach 2,
not 1 — they are incremented once per region, not once per match. -/
theorem c1_counterexample :
    (find_sensitive_text ssnDetector "123-45-6789".data).length = 1 ∧
    (redact_pdf ssnDetector [pageTwoRegions]).redactions = 2 ∧
    catGet (redact_pdf ssnDetector [pageTwoRegions]).categories
      "Social Security Numbers" = 2 := by
  refine ⟨by decide, by decide, by decide⟩

/-- C3 counterexample: two enabled categories `A` and `B` whose patterns both
produce the raw occurrence `(0, 2)` on the text `"ab"`.  Swapping only the
iteration order of the two categories changes the returned list: the
first-scanned category's name is attached to the kept match. -/
theorem c3_counterexample :
    (SensitiveInfoDetector.mk [("a", catTieA), ("b", catTieB)] []).categories.Perm
      (SensitiveInfoDetector.mk [("b", catTieB), ("a", catTieA)] []).categories ∧
    find_sensitive_text ⟨[("a", catTieA), ("b", catTieB)], []⟩ "ab".data ≠
      find_sensitive_text ⟨[("b", catTieB), ("a", catTieA)], []⟩ "ab".data := by
  constructor
  · exact List.Perm.swap _ _ _
  · decide

/-- C4 counterexample: on a document whose only content is an SSN paragraph
in the first section's header, the CLI/web `redact_docx` cited by the claim
visits nothing: the paragraph statistic stays 0, no redaction is made, and
the document (header included) is returned unchanged.  The GUI
`WordRedactor.redact` does scan, count and redact that header paragraph. -/
theorem c4_counterexample :
    (redact_docx ssnDetector headerOnlyDoc).2.paragraphs = 0 ∧
    (redact_docx ssnDetector headerOnlyDoc).2.redactions = 0 ∧
    (redact_docx ssnDetector headerOnlyDoc).1 = headerOnlyDoc ∧
    (word_redact [("SSN", ssnCat)] headerOnlyDoc).2.paragraphs = 1 ∧
    (word_redact [("SSN", ssnCat)] headerOnlyDoc).2.redactions = 1 := by
  refine ⟨by decide, by decide, by decide, by decide, by decide⟩

/-! ## PDF statistics accumulation -/

theorem pdfMatchStep_red (page : PdfPage) (st : PdfStats) (m : RMatch) :
    (pdfMatchStep page st m).redactions = st.redactions + (page.searchFor m.txt).length := by
  rw [pdfMatchStep,
    foldl_measure (fun st _ => pdfInstStep m.cat st) PdfStats.redactions (fun _ => 1)
      (fun _ _ => rfl) (page.searchFor m.txt) st,
    sum_map_const]
  omega

theorem pdfSpanStep_red (d : SensitiveInfoDetector) (page : PdfPage) (st : PdfStats)
    (sp : PdfSpan) :
    (pdfSpanStep d page st sp).redactions = st.redactions + spanRegionCount d page sp := by
  rw [pdfSpanStep, spanRegionCount]
  split
  · omega
  · exact foldl_measure (pdfMatchStep page) PdfStats.redactions
      (fun m => (page.searchFor m.txt).length) (pdfMatchStep_red page) _ st

theorem pdfLineStep_red (d : SensitiveInfoDetector) (page : PdfPage) (st : PdfStats)
    (ln : PdfLine) :
    (pdfLineStep d page st ln).redactions = st.redactions + lineRegionCount d page ln := by
  rw [pdfLineStep, lineRegionCount]
  exact foldl_measure (pdfSpanStep d page) PdfStats.redactions
    (spanRegionCount d page) (pdfSpanStep_red d page) ln.spans st

theorem pdfBlockStep_red (d : SensitiveInfoDetector) (page : PdfPage) (st : PdfStats)
    (b : PdfBlock) :
    (pdfBlockStep d page st b).redactions = st.redactions + blockRegionCount d page b := by
  rw [pdfBlockStep, blockRegionCount]
  split
  · omega
  · exact foldl_measure (pdfLineStep d page) PdfStats.redactions
      (lineRegionCount d page) (pdfLineStep_red d page) b.lines st

theorem pdfPageStep_red (d : SensitiveInfoDetector) (st : PdfStats) (page : PdfPage) :
    (pdfPageStep d st page).redactions = st.redactions + pageRegionCount d page := by
  rw [pdfPageStep, pageRegionCount]
  exact foldl_measure (pdfBlockStep d page) PdfStats.redactions
    (blockRegionCount d page) (pdfBlockStep_red d page) page.blocks
    ⟨st.pages + 1, st.redactions, st.categories⟩

theorem pdfMatchStep_cat (page : PdfPage) (c : String) (st : PdfStats) (m : RMatch) :
    catGet (pdfMatchStep page st m).categories c =
      catGet st.categories c + (if m.cat = c then (page.searchFor m.txt).length else 0) := by
  rw [pdfMatchStep,
    foldl_measure (fun st _ => pdfInstStep m.cat st) (fun st => catGet st.categories c)
      (fun _ => if m.cat = c then 1 else 0)
      (fun s _ => catGet_bump s.categories m.cat c) (page.searchFor m.txt) st,
    sum_map_const]
  by_cases h : m.cat = c
  · simp [h]
  · simp [h]

theorem pdfSpanStep_cat (d : SensitiveInfoDetector) (page : PdfPage) (c : String)
    (st : PdfStats) (sp : PdfSpan) :
    catGet (pdfSpanStep d page st sp).categories c =
      catGet st.categories c + spanRegionCountCat d page sp c := by
  rw [pdfSpanStep, spanRegionCountCat]
  split
  · omega
  · rw [foldl_measure (pdfMatchStep page) (fun st => catGet st.categories c)
      (fun m => if m.cat = c then (page.searchFor m.txt).length else 0)
      (pdfMatchStep_cat page c) _ st, sum_filter_ite]
    simp

theorem pdfLineStep_cat (d : SensitiveInfoDetector) (page : PdfPage) (c : String)
    (st : PdfStats) (ln : PdfLine) :
    catGet (pdfLineStep d page st ln).categories c =
      catGet st.categories c + lineRegionCountCat d page ln c := by
  rw [pdfLineStep, lineRegionCountCat]
  exact foldl_measure (pdfSpanStep d page) (fun st => catGet st.categories c)
    (fun sp => spanRegionCountCat d page sp c) (pdfSpanStep_cat d page c) ln.spans st

theorem pdfBlockStep_cat (d : SensitiveInfoDetector) (page : PdfPage) (c : String)
    (st : PdfStats) (b : PdfBlock) :
    catGet (pdfBlockStep d page st b).categories c =
      catGet st.categories c + blockRegionCountCat d page b c := by
  rw [pdfBlockStep, blockRegionCountCat]
  split
  · omega
  · exact foldl_measure (pdfLineStep d page) (fun st => catGet st.categories c)
      (fun ln => lineRegionCountCat d page ln c) (pdfLineStep_cat d page c) b.lines st

theorem pdfPageStep_cat (d : SensitiveInfoDetector) (c : String) (st : PdfStats)
    (page : PdfPage) :
    catGet (pdfPageStep d st page).categories c =
      catGet st.categories c + pageRegionCountCat d page c := by
  rw [pdfPageStep, pageRegionCountCat]
  exact foldl_measure (pdfBlockStep d page) (fun st => catGet st.categories c)
    (fun b => blockRegionCountCat d page b c) (pdfBlockStep_cat d page c) page.blocks
    ⟨st.pages + 1, st.redactions, st.categories⟩

/-- C1 amended: in the PDF applier the redaction counter and every
per-category counter advance once per bounding region the page search
returns — the totals are the sums, over all scanned spans and matches, of the
number of regions found for the matched substring. -/
theorem c1_amended : ∀ (d : SensitiveInfoDetector) (doc : List PdfPage),
    (redact_pdf d doc).redactions = docRegionCount d doc ∧
    ∀ c, catGet (redact_pdf d doc).categories c = docRegionCountCat d doc c := by
  intro d doc
  constructor
  · rw [redact_pdf, docRegionCount,
      foldl_measure (pdfPageStep d) PdfStats.redactions (pageRegionCount d)
        (pdfPageStep_red d) doc ⟨0, 0, []⟩]
    simp
  · intro c
    rw [redact_pdf, docRegionCountCat,
      foldl_measure (pdfPageStep d) (fun st => catGet st.categories c)
        (fun p => pageRegionCountCat d p c) (pdfPageStep_cat d c) doc ⟨0, 0, []⟩]
    simp [catGet]

/-! ## Category accounting (C5) and paragraph counting (C4) -/

theorem pdfInstStep_inv (cat : String) (st : PdfStats) :
    catSum st.categories = st.redactions →
    catSum (pdfInstStep cat st).categories = (pdfInstStep cat st).redactions := by
  intro h
  show catSum (bump st.categories cat) = st.redactions + 1
  rw [catSum_bump, h]

theorem pdfMatchStep_inv (page : PdfPage) (st : PdfStats) (m : RMatch) :
    catSum st.categories = st.redactions →
    catSum (pdfMatchStep page st m).categories = (pdfMatchStep page st m).redactions := by
  intro h
  rw [pdfMatchStep]
  exact foldl_inv _ (fun s => catSum s.categories = s.redactions)
    (fun s _ hs => pdfInstStep_inv m.cat s hs) _ st h

theorem pdfSpanStep_inv (d : SensitiveInfoDetector) (page : PdfPage) (st : PdfStats)
    (sp : PdfSpan) :
    catSum st.categories = st.redactions →
    catSum (pdfSpanStep d page st sp).categories = (pdfSpanStep d page st sp).redactions := by
  intro h
  rw [pdfSpanStep]
  split
  · exact h
  · exact foldl_inv _ (fun s => catSum s.categories = s.redactions)
      (fun s m hs => pdfMatchStep_inv page s m hs) _ st h

theorem pdfLineStep_inv (d : SensitiveInfoDetector) (page : PdfPage) (st : PdfStats)
    (ln : PdfLine) :
    catSum st.categories = st.redactions →
    catSum (pdfLineStep d page st ln).categories = (pdfLineStep d page st ln).redactions := by
  intro h
  rw [pdfLineStep]
  exact foldl_inv _ (fun s => catSum s.categories = s.redactions)
    (fun s sp hs => pdfSpanStep_inv d page s sp hs) _ st h

theorem pdfBlockStep_inv (d : SensitiveInfoDetector) (page : PdfPage) (st : PdfStats)
    (b : PdfBlock) :
    catSum st.categories = st.redactions →
    catSum (pdfBlockStep d page st b).categories = (pdfBlockStep d page st b).redactions := by
  intro h
  rw [pdfBlockStep]
  split
  · exact h
  · exact foldl_inv _ (fun s => catSum s.categories = s.redactions)
      (fun s ln hs => pdfLineStep_inv d page s ln hs) _ st h

theorem pdfPageStep_inv (d : SensitiveInfoDetector) (st : PdfStats) (page : PdfPage) :
    catSum st.categories = st.redactions →
    catSum (pdfPageStep d st page).categories = (pdfPageStep d st page).redactions := by
  intro h
  rw [pdfPageStep]
  exact foldl_inv _ (fun s => catSum s.categories = s.redactions)
    (fun s b hs => pdfBlockStep_inv d page s b hs) _
    ⟨st.pages + 1, st.redactions, st.categories⟩ h

/-- The two components of a `process_paragraph` result: either nothing
changed, or the statistics went through the per-match counting loop. -/
theorem paraStep_snd (f : List Char → List RMatch) (p : DocxPara) (st : DocxStats) :
    (paraStep f p st).2 = st ∨
    (paraStep f p st).2 = (f (paraText p)).foldl
      (fun s m => ⟨s.paragraphs, s.redactions + 1, bump s.categories m.cat⟩) st := by
  simp only [paraStep]
  split
  · left; rfl
  · split
    · left; rfl
    · split
      · right; rfl
      · right; rfl

theorem docxFoldl_paragraphs (ms : List RMatch) (st : DocxStats) :
    (ms.foldl (fun s m =>
      DocxStats.mk s.paragraphs (s.redactions + 1) (bump s.categories m.cat)) st).paragraphs
      = st.paragraphs := by
  induction ms generalizing st with
  | nil => rfl
  | cons m ms ih => exact ih _

theorem docxFoldl_inv (ms : List RMatch) (st : DocxStats) :
    catSum st.categories = st.redactions →
    catSum (ms.foldl (fun s m =>
        DocxStats.mk s.paragraphs (s.redactions + 1) (bump s.categories m.cat)) st).categories
      = (ms.foldl (fun s m =>
        DocxStats.mk s.paragraphs (s.redactions + 1) (bump s.categories m.cat)) st).redactions := by
  intro h
  exact foldl_inv
    (fun (s : DocxStats) (m : RMatch) =>
      DocxStats.mk s.paragraphs (s.redactions + 1) (bump s.categories m.cat))
    (fun s => catSum s.categories = s.redactions)
    (fun s m hs => by
      show catSum (bump s.categories m.cat) = s.redactions + 1
      rw [catSum_bump, hs]) ms st h

theorem paraStep_paragraphs (f : List Char → List RMatch) (p : DocxPara) (st : DocxStats) :
    (paraStep f p st).2.paragraphs = st.paragraphs := by
  rcases paraStep_snd f p st with h | h
  · rw [h]
  · rw [h, docxFoldl_paragraphs]

theorem paraStep_inv (f : List Char → List RMatch) (p : DocxPara) (st : DocxStats) :
    catSum st.categories = st.redactions →
    catSum (paraStep f p st).2.categories = (paraStep f p st).2.redactions := by
  intro h
  rcases paraStep_snd f p st with he | he
  · rw [he]; exact h
  · rw [he]; exact docxFoldl_inv _ _ h

theorem processParas_paragraphs (f : List Char → List RMatch) :
    ∀ (ps : List DocxPara) (st : DocxStats),
    (processParas f ps st).2.paragraphs = st.paragraphs + ps.length := by
  intro ps
  induction ps with
  | nil => intro st; simp [processParas]
  | cons p rest ih =>
    intro st
    have h1 : (processParas f (p :: rest) st).2 =
        (processParas f rest
          (paraStep f p ⟨st.paragraphs + 1, st.redactions, st.categories⟩).2).2 := rfl
    rw [h1, ih, paraStep_paragraphs]
    show st.paragraphs + 1 + rest.length = st.paragraphs + (rest.length + 1)
    omega

theorem processParas_inv (f : List Char → List RMatch) :
    ∀ (ps : List DocxPara) (st : DocxStats),
    catSum st.categories = st.redactions →
    catSum (processParas f ps st).2.categories = (processParas f ps st).2.redactions := by
  intro ps
  induction ps with
  | nil => intro st h; exact h
  | cons p rest ih =>
    intro st h
    have h1 : (processParas f (p :: rest) st).2 =
        (processParas f rest
          (paraStep f p ⟨st.paragraphs + 1, st.redactions, st.categories⟩).2).2 := rfl
    rw [h1]
    exact ih _ (paraStep_inv f p _ h)

theorem processCells_paragraphs (f : List Char → List RMatch) :
    ∀ (cs : List DocxCell) (st : DocxStats),
    (processCells f cs st).2.paragraphs =
      st.paragraphs + (cs.map (fun c => c.paragraphs.length)).sum := by
  intro cs
  induction cs with
  | nil => intro st; simp [processCells]
  | cons c rest ih =>
    intro st
    have h1 : (processCells f (c :: rest) st).2 =
        (processCells f rest (processParas f c.paragraphs st).2).2 := rfl
    rw [h1, ih, processParas_paragraphs, List.map_cons, List.sum_cons]
    omega

theorem processCells_inv (f : List Char → List RMatch) :
    ∀ (cs : List DocxCell) (st : DocxStats),
    catSum st.categories = st.redactions →
    catSum (processCells f cs st).2.categories = (processCells f cs st).2.redactions := by
  intro cs
  induction cs with
  | nil => intro st h; exact h
  | cons c rest ih =>
    intro st h
    have h1 : (processCells f (c :: rest) st).2 =
        (processCells f rest (processParas f c.paragraphs st).2).2 := rfl
    rw [h1]
    exact ih _ (processParas_inv f _ _ h)

theorem processRows_paragraphs (f : List Char → List RMatch) :
    ∀ (rs : List DocxRow) (st : DocxStats),
    (processRows f rs st).2.paragraphs =
      st.paragraphs + (rs.map (fun r => (r.cells.map (fun c => c.paragraphs.length)).sum)).sum := by
  intro rs
  induction rs with
  | nil => intro st; simp [processRows]
  | cons r rest ih =>
    intro st
    have h1 : (processRows f (r :: rest) st).2 =
        (processRows f rest (processCells f r.cells st).2).2 := rfl
    rw [h1, ih, processCells_paragraphs, List.map_cons, List.sum_cons]
    omega

theorem processRows_inv (f : List Char → List RMatch) :
    ∀ (rs : List DocxRow) (st : DocxStats),
    catSum st.categories = st.redactions →
    catSum (processRows f rs st).2.categories = (processRows f rs st).2.redactions := by
  intro rs
  induction rs with
  | nil => intro st h; exact h
  | cons r rest ih =>
    intro st h
    have h1 : (processRows f (r :: rest) st).2 =
        (processRows f rest (processCells f r.cells st).2).2 := rfl
    rw [h1]
    exact ih _ (processCells_inv f _ _ h)

theorem processTables_paragraphs (f : List Char → List RMatch) :
    ∀ (ts : List DocxTable) (st : DocxStats),
    (processTables f ts st).2.paragraphs = st.paragraphs + tablesParaCount ts := by
  intro ts
  induction ts with
  | nil => intro st; simp [processTables, tablesParaCount]
  | cons tb rest ih =>
    intro st
    have h1 : (processTables f (tb :: rest) st).2 =
        (processTables f rest (processRows f tb.rows st).2).2 := rfl
    rw [h1, ih, processRows_paragraphs]
    simp only [tablesParaCount, List.map_cons, List.sum_cons]
    omega

theorem processTables_inv (f : List Char → List RMatch) :
    ∀ (ts : List DocxTable) (st : DocxStats),
    catSum st.categories = st.redactions →
    catSum (processTables f ts st).2.categories = (processTables f ts st).2.redactions := by
  intro ts
  induction ts with
  | nil => intro st h; exact h
  | cons tb rest ih =>
    intro st h
    have h1 : (processTables f (tb :: rest) st).2 =
        (processTables f rest (processRows f tb.rows st).2).2 := rfl
    rw [h1]
    exact ih _ (processRows_inv f _ _ h)

theorem processSection_paragraphs (f : List Char → List RMatch) (sec : DocxSection)
    (st : DocxStats) :
    (processSection f sec st).2.paragraphs = st.paragraphs +
      (sec.header.length + sec.first_page_header.length + sec.even_page_header.length +
       sec.footer.length + sec.first_page_footer.length + sec.even_page_footer.length) := by
  have h1 : (processSection f sec st).2 =
      (processParas f sec.even_page_footer
        (processParas f sec.first_page_footer
          (processParas f sec.footer
            (processParas f sec.even_page_header
              (processParas f sec.first_page_header
                (processParas f sec.header st).2).2).2).2).2).2 := rfl
  rw [h1, processParas_paragraphs, processParas_paragraphs, processParas_paragraphs,
    processParas_paragraphs, processParas_paragraphs, processParas_paragraphs]
  omega

theorem processSection_inv (f : List Char → List RMatch) (sec : DocxSection)
    (st : DocxStats) :
    catSum st.categories = st.redactions →
    catSum (processSection f sec st).2.categories = (processSection f sec st).2.redactions := by
  intro h
  have h1 : (processSection f sec st).2 =
      (processParas f sec.even_page_footer
        (processParas f sec.first_page_footer
          (processParas f sec.footer
            (processParas f sec.even_page_header
              (processParas f sec.first_page_header
                (processParas f sec.header st).2).2).2).2).2).2 := rfl
  rw [h1]
  exact processParas_inv f _ _ (processParas_inv f _ _ (processParas_inv f _ _
    (processParas_inv f _ _ (processParas_inv f _ _ (processParas_inv f _ _ h)))))

theorem processSections_paragraphs (f : List Char → List RMatch) :
    ∀ (ss : List DocxSection) (st : DocxStats),
    (processSections f ss st).2.paragraphs = st.paragraphs + sectionsParaCount ss := by
  intro ss
  induction ss with
  | nil => intro st; simp [processSections, sectionsParaCount]
  | cons sec rest ih =>
    intro st
    have h1 : (processSections f (sec :: rest) st).2 =
        (processSections f rest (processSection f sec st).2).2 := rfl
    rw [h1, ih, processSection_paragraphs]
    simp only [sectionsParaCount, List.map_cons, List.sum_cons]
    omega

theorem processSections_inv (f : List Char → List RMatch) :
    ∀ (ss : List DocxSection) (st : DocxStats),
    catSum st.categories = st.redactions →
    catSum (processSections f ss st).2.categories = (processSections f ss st).2.redactions := by
  intro ss
  induction ss with
  | nil => intro st h; exact h
  | cons sec rest ih =>
    intro st h
    have h1 : (processSections f (sec :: rest) st).2 =
        (processSections f rest (processSection f sec st).2).2 := rfl
    rw [h1]
    exact ih _ (processSection_inv f _ _ h)

/-- C4 amended: the CLI/web `redact_docx` counts exactly the body and
table-cell paragraphs; only the GUI `WordRedactor.redact` additionally
counts every section's header and footer paragraphs. -/
theorem c4_amended : ∀ (d : SensitiveInfoDetector)
    (cats : List (String × SensitiveCategory)) (doc : DocxDoc),
    (redact_docx d doc).2.paragraphs = doc.paragraphs.length + tablesParaCount doc.tables ∧
    (word_redact cats doc).2.paragraphs =
      doc.paragraphs.length + tablesParaCount doc.tables + sectionsParaCount doc.sections := by
  intro d cats doc
  constructor
  · have h1 : (redact_docx d doc).2 =
        (processTables (find_sensitive_text d) doc.tables
          (processParas (find_sensitive_text d) doc.paragraphs ⟨0, 0, []⟩).2).2 := rfl
    rw [h1, processTables_paragraphs, processParas_paragraphs]
    show 0 + doc.paragraphs.length + tablesParaCount doc.tables = _
    omega
  · have h1 : (word_redact cats doc).2 =
        (processSections (find_gui cats) doc.sections
          (processTables (find_gui cats) doc.tables
            (processParas (find_gui cats) doc.paragraphs ⟨0, 0, []⟩).2).2).2 := rfl
    rw [h1, processSections_paragraphs, processTables_paragraphs, processParas_paragraphs]
    show 0 + doc.paragraphs.length + tablesParaCount doc.tables + sectionsParaCount doc.sections = _
    omega

/-- C5: after any full document run — PDF, CLI/web DOCX, or GUI DOCX — the
sum of the per-category counts equals the total redaction count. -/
theorem c5_category_accounting :
    (∀ (d : SensitiveInfoDetector) (doc : List PdfPage),
      catSum (redact_pdf d doc).categories = (redact_pdf d doc).redactions) ∧
    (∀ (d : SensitiveInfoDetector) (doc : DocxDoc),
      catSum (redact_docx d doc).2.categories = (redact_docx d doc).2.redactions) ∧
    (∀ (cats : List (String × SensitiveCategory)) (doc : DocxDoc),
      catSum (word_redact cats doc).2.categories = (word_redact cats doc).2.redactions) := by
  refine ⟨?_, ?_, ?_⟩
  · intro d doc
    rw [redact_pdf]
    exact foldl_inv _ (fun s => catSum s.categories = s.redactions)
      (fun s page hs => pdfPageStep_inv d s page hs) doc ⟨0, 0, []⟩ rfl
  · intro d doc
    have h1 : (redact_docx d doc).2 =
        (processTables (find_sensitive_text d) doc.tables
          (processParas (find_sensitive_text d) doc.paragraphs ⟨0, 0, []⟩).2).2 := rfl
    rw [h1]
    exact processTables_inv _ _ _ (processParas_inv _ _ _ rfl)
  · intro cats doc
    have h1 : (word_redact cats doc).2 =
        (processSections (find_gui cats) doc.sections
          (processTables (find_gui cats) doc.tables
            (processParas (find_gui cats) doc.paragraphs ⟨0, 0, []⟩).2).2).2 := rfl
    rw [h1]
    exact processSections_inv _ _ _ (processTables_inv _ _ _ (processParas_inv _ _ _ rfl))

/-- C8: a paragraph whose full text yields zero matches is returned
completely unchanged (every run's text and formatting intact), and the
statistics are untouched. -/
theorem c8_noop_on_no_matches : ∀ (d : SensitiveInfoDetector) (p : DocxPara) (st : DocxStats),
    find_sensitive_text d (paraText p) = [] →
    paraStep (find_sensitive_text d) p st = (p, st) := by
  intro d p st h
  simp [paraStep, h]

theorem c8_noop_on_no_matches_witness :
    find_sensitive_text allCatsDetector (paraText ⟨[⟨"hello".data, emptyFont⟩]⟩) = [] ∧
    paraStep (find_sensitive_text allCatsDetector) ⟨[⟨"hello".data, emptyFont⟩]⟩ ⟨0, 0, []⟩ =
      (⟨[⟨"hello".data, emptyFont⟩]⟩, (⟨0, 0, []⟩ : DocxStats)) :=
  ⟨by decide, c8_noop_on_no_matches allCatsDetector ⟨[⟨"hello".data, emptyFont⟩]⟩ ⟨0, 0, []⟩
    (by decide)⟩

/-- C10: `set_custom_terms` stores exactly the non-blank terms with
surrounding whitespace stripped, and consequently the term
`" Confidential "` yields the same detector output as `"Confidential"`. -/
theorem c10_trimmed_custom_terms :
    (∀ (terms : List (List Char)),
      set_custom_terms terms = (terms.map stripChars).filter (fun u => !decide (u = []))) ∧
    (∀ (cats : List (String × SensitiveCategory)) (t : List Char),
      find_sensitive_text ⟨cats, set_custom_terms [" Confidential ".data]⟩ t =
        find_sensitive_text ⟨cats, set_custom_terms ["Confidential".data]⟩ t) := by
  constructor
  · intro terms
    induction terms with
    | nil => rfl
    | cons u us ih =>
      rw [set_custom_terms] at ih
      by_cases h : stripChars u = []
      · simp [set_custom_terms, List.filterMap_cons, h, ih]
      · simp [set_custom_terms, List.filterMap_cons, h, ih]
  · intro cats t
    have h : set_custom_terms [" Confidential ".data] =
        set_custom_terms ["Confidential".data] := by decide
    rw [h]

/-! ## Idempotent re-scan (C7) -/

theorem length_maskFrom (s e : Nat) : ∀ (t : List Char) (i : Nat),
    (maskFrom s e i t).length = t.length := by
  intro t
  induction t with
  | nil => intro i; rfl
  | cons c cs ih =>
    intro i
    rw [maskFrom, List.length_cons, List.length_cons, ih]

theorem getD_maskFrom (s e : Nat) : ∀ (t : List Char) (i p : Nat), p < t.length →
    (maskFrom s e i t).getD p ' ' =
      if s ≤ i + p ∧ i + p < e then '█' else t.getD p ' ' := by
  intro t
  induction t with
  | nil => intro i p hp; simp at hp
  | cons c cs ih =>
    intro i p hp
    cases p with
    | zero => rw [maskFrom]; simp
    | succ p =>
      rw [maskFrom]
      have h1 : (((if s ≤ i ∧ i < e then '█' else c) :: maskFrom s e (i + 1) cs).getD
          (p + 1) ' ') = (maskFrom s e (i + 1) cs).getD p ' ' := rfl
      have h2 : ((c :: cs).getD (p + 1) ' ') = cs.getD p ' ' := rfl
      rw [h1, h2, ih (i + 1) p (by simpa using Nat.lt_of_succ_lt_succ hp)]
      have harith : i + 1 + p = i + (p + 1) := by omega
      rw [harith]

theorem length_maskRange (t : List Char) (s e : Nat) :
    (maskRange t s e).length = t.length := length_maskFrom s e t 0

theorem getD_maskRange (t : List Char) (s e p : Nat) (hp : p < t.length) :
    (maskRange t s e).getD p ' ' = if s ≤ p ∧ p < e then '█' else t.getD p ' ' := by
  rw [maskRange, getD_maskFrom s e t 0 p hp]
  simp

theorem length_redactText : ∀ (ms : List RMatch) (t : List Char),
    (redactText t ms).length = t.length := by
  intro ms
  induction ms with
  | nil => intro t; rfl
  | cons m ms ih =>
    intro t
    have h1 : redactText t (m :: ms) = redactText (maskRange t m.s m.e) ms := rfl
    rw [h1, ih, length_maskRange]

/-- Once a position holds the block glyph, further masking keeps it. -/
theorem redactText_keeps_block : ∀ (ms : List RMatch) (t : List Char) (p : Nat),
    p < t.length → t.getD p ' ' = '█' → (redactText t ms).getD p ' ' = '█' := by
  intro ms
  induction ms with
  | nil => intro t p _ h; exact h
  | cons m ms ih =>
    intro t p hp h
    have h1 : redactText t (m :: ms) = redactText (maskRange t m.s m.e) ms := rfl
    rw [h1]
    refine ih _ p (by rw [length_maskRange]; exact hp) ?_
    rw [getD_maskRange t m.s m.e p hp]
    split
    · rfl
    · exact h

/-- Every position covered by one of the applied matches holds the block
glyph afterwards. -/
theorem redactText_block : ∀ (ms : List RMatch) (t : List Char) (m : RMatch),
    m ∈ ms → ∀ p, m.s ≤ p → p < m.e → p < t.length →
    (redactText t ms).getD p ' ' = '█' := by
  intro ms
  induction ms with
  | nil => intro t m hm; simp at hm
  | cons m' ms ih =>
    intro t m hm p hsp hpe hpt
    have h1 : redactText t (m' :: ms) = redactText (maskRange t m'.s m'.e) ms := rfl
    rw [h1]
    rcases List.mem_cons.mp hm with rfl | hm'
    · refine redactText_keeps_block ms _ p (by rw [length_maskRange]; exact hpt) ?_
      rw [getD_maskRange t m.s m.e p hpt, if_pos ⟨hsp, hpe⟩]
    · exact ih _ m hm' p hsp hpe (by rw [length_maskRange]; exact hpt)

/-- None of the positional predefined patterns can consume the block glyph. -/
theorem posPatterns_block :
    (detPatterns allCatsDetector).all (fun r => !okChar r '█') = true := by
  decide

/-- C7: re-scanning text whose matched spans were replaced by the block
glyph, with the five positional predefined categories, yields no match whose
span intersects any replaced span. -/
theorem c7_idempotent_rescan : ∀ (t : List Char),
    ((find_sensitive_text allCatsDetector
        (redactText t (find_sensitive_text allCatsDetector t))).all
      (fun m2 => (find_sensitive_text allCatsDetector t).all
        (fun m1 => !overlapB m2.s m2.e m1.s m1.e))) = true := by
  intro t
  rw [List.all_eq_true]
  intro m2 hm2
  rw [List.all_eq_true]
  intro m1 hm1
  rw [Bool.not_eq_true']
  cases hov : overlapB m2.s m2.e m1.s m1.e with
  | false => rfl
  | true =>
    exfalso
    rw [overlapB, decide_eq_true_eq] at hov
    have h1 := rawMatches_spec allCatsDetector t m1 (find_subset _ _ _ hm1)
    have hpt : max m2.s m1.s < t.length :=
      Nat.lt_of_lt_of_le (Nat.lt_of_lt_of_le hov (Nat.min_le_right _ _)) h1.2.2.1
    have hblock : (redactText t (find_sensitive_text allCatsDetector t)).getD
        (max m2.s m1.s) ' ' = '█' :=
      redactText_block _ t m1 hm1 (max m2.s m1.s) (Nat.le_max_right _ _)
        (Nat.lt_of_lt_of_le hov (Nat.min_le_right _ _)) hpt
    have h2 := rawMatches_spec allCatsDetector
      (redactText t (find_sensitive_text allCatsDetector t)) m2 (find_subset _ _ _ hm2)
    obtain ⟨r, hr, hcons⟩ := h2.2.2.2
    have hc := hcons (max m2.s m1.s) (Nat.le_max_left _ _)
      (Nat.lt_of_lt_of_le hov (Nat.min_le_left _ _))
    rw [hblock] at hc
    have hall := List.all_eq_true.mp posPatterns_block r hr
    rw [Bool.not_eq_true'] at hall
    rw [hall] at hc
    exact Bool.false_ne_true hc

/-! ## Order independence up to key ties (C3) -/

theorem keyLe_total (a b : RMatch) : keyLe a b = true ∨ keyLe b a = true := by
  simp only [keyLe, Bool.or_eq_true, Bool.and_eq_true, decide_eq_true_eq]
  omega

theorem keyLe_trans (a b c : RMatch) :
    keyLe a b = true → keyLe b c = true → keyLe a c = true := by
  simp only [keyLe, Bool.or_eq_true, Bool.and_eq_true, decide_eq_true_eq]
  omega

theorem keyLe_antisymm (a b : RMatch) :
    keyLe a b = true → keyLe b a = true → a.s = b.s ∧ a.e - a.s = b.e - b.s := by
  simp only [keyLe, Bool.or_eq_true, Bool.and_eq_true, decide_eq_true_eq]
  omega

theorem insertStable_perm (x : RMatch) : ∀ (l : List RMatch),
    (insertStable x l).Perm (x :: l) := by
  intro l
  induction l with
  | nil => exact List.Perm.refl _
  | cons y ys ih =>
    rw [insertStable]
    split
    · exact (ih.cons y).trans (List.Perm.swap x y ys)
    · exact List.Perm.refl _

theorem sortStable_perm : ∀ (l : List RMatch), (sortStable l).Perm l := by
  intro l
  induction l with
  | nil => exact List.Perm.refl _
  | cons x xs ih =>
    rw [sortStable]
    exact (insertStable_perm x (sortStable xs)).trans (ih.cons x)

theorem insertStable_sorted (x : RMatch) : ∀ (l : List RMatch),
    l.Pairwise (fun a b => keyLe a b = true) →
    (insertStable x l).Pairwise (fun a b => keyLe a b = true) := by
  intro l
  induction l with
  | nil =>
    intro _
    simp [insertStable]
  | cons y ys ih =>
    intro h
    rw [List.pairwise_cons] at h
    obtain ⟨hy, hys⟩ := h
    rw [insertStable]
    split
    · rename_i hlt
      rw [List.pairwise_cons]
      refine ⟨?_, ih hys⟩
      intro b hb
      rcases (mem_insertStable x b ys).mp hb with rfl | hb
      · rw [keyLt, Bool.and_eq_true] at hlt
        exact hlt.1
      · exact hy b hb
    · rename_i hnlt
      have hxy : keyLe x y = true := by
        by_contra hc
        have hfalse : keyLe x y = false := by
          cases hxyb : keyLe x y
          · rfl
          · exact absurd hxyb hc
        have hyx : keyLe y x = true := by
          rcases keyLe_total x y with h' | h'
          · exact absurd h' hc
          · exact h'
        apply hnlt
        rw [keyLt, hyx, hfalse]
        rfl
      rw [List.pairwise_cons]
      refine ⟨?_, List.pairwise_cons.mpr ⟨hy, hys⟩⟩
      intro b hb
      rcases List.mem_cons.mp hb with rfl | hb
      · exact hxy
      · exact keyLe_trans x y b hxy (hy b hb)

theorem sortStable_sorted : ∀ (l : List RMatch),
    (sortStable l).Pairwise (fun a b => keyLe a b = true) := by
  intro l
  induction l with
  | nil => exact List.Pairwise.nil
  | cons x xs ih =>
    rw [sortStable]
    exact insertStable_sorted x (sortStable xs) ih

/-- Two sorted permutations of each other are equal when elements tied under
the comparison are themselves equal. -/
theorem sorted_perm_unique : ∀ (l1 l2 : List RMatch), l1.Perm l2 →
    l1.Pairwise (fun a b => keyLe a b = true) →
    l2.Pairwise (fun a b => keyLe a b = true) →
    (∀ a ∈ l1, ∀ b ∈ l1, keyLe a b = true → keyLe b a = true → a = b) →
    l1 = l2 := by
  intro l1
  induction l1 with
  | nil =>
    intro l2 hp _ _ _
    exact hp.nil_eq
  | cons a t1 ih =>
    intro l2 hp h1 h2 hanti
    cases l2 with
    | nil =>
      have := hp.symm.nil_eq
      simp at this
    | cons b t2 =>
      have hab : a = b := by
        by_cases h : a = b
        · exact h
        · exfalso
          have hbmem : b ∈ a :: t1 := hp.mem_iff.mpr (List.mem_cons_self b t2)
          have hamem : a ∈ b :: t2 := hp.mem_iff.mp (List.mem_cons_self a t1)
          have hbt1 : b ∈ t1 := by
            rcases List.mem_cons.mp hbmem with h' | h'
            · exact absurd h'.symm h
            · exact h'
          have hat2 : a ∈ t2 := by
            rcases List.mem_cons.mp hamem with h' | h'
            · exact absurd h' h
            · exact h'
          have hab1 : keyLe a b = true := (List.pairwise_cons.mp h1).1 b hbt1
          have hba1 : keyLe b a = true := (List.pairwise_cons.mp h2).1 a hat2
          exact h (hanti a (List.mem_cons_self a t1) b hbmem hab1 hba1)
      subst hab
      have ht : t1 = t2 :=
        ih t2 hp.cons_inv (List.pairwise_cons.mp h1).2 (List.pairwise_cons.mp h2).2
          (fun x hx y hy hxy hyx =>
            hanti x (List.mem_cons_of_mem _ hx) y (List.mem_cons_of_mem _ hy) hxy hyx)
      rw [ht]

/-- C3 amended: the output of `find_sensitive_text` is unchanged under any
permutation of the category iteration order, provided no two raw occurrences
share both start offset and length without being the same tuple.  (When two
categories do tie exactly, the one scanned first wins — see the
counterexample.) -/
theorem c3_order_independent : ∀ (cats1 cats2 : List (String × SensitiveCategory))
    (terms : List (List Char)) (t : List Char),
    cats1.Perm cats2 →
    (∀ m1 ∈ rawMatches ⟨cats1, terms⟩ t, ∀ m2 ∈ rawMatches ⟨cats1, terms⟩ t,
      m1.s = m2.s → m1.e - m1.s = m2.e - m2.s → m1 = m2) →
    find_sensitive_text ⟨cats1, terms⟩ t = find_sensitive_text ⟨cats2, terms⟩ t := by
  intro cats1 cats2 terms t hperm htie
  have hraw : (rawMatches ⟨cats1, terms⟩ t).Perm (rawMatches ⟨cats2, terms⟩ t) := by
    show ((cats1.flatMap fun kc => catMatches t kc.2) ++ customMatches t terms).Perm
      ((cats2.flatMap fun kc => catMatches t kc.2) ++ customMatches t terms)
    exact (hperm.flatMap_right _).append_right _
  have hperm' : (sortStable (rawMatches ⟨cats1, terms⟩ t)).Perm
      (sortStable (rawMatches ⟨cats2, terms⟩ t)) :=
    ((sortStable_perm _).trans hraw).trans (sortStable_perm _).symm
  have heq : sortStable (rawMatches ⟨cats1, terms⟩ t) =
      sortStable (rawMatches ⟨cats2, terms⟩ t) := by
    refine sorted_perm_unique _ _ hperm' (sortStable_sorted _) (sortStable_sorted _) ?_
    intro x hx y hy hxy hyx
    have hx' := (mem_sortStable x _).mp hx
    have hy' := (mem_sortStable y _).mp hy
    obtain ⟨hs, hlen⟩ := keyLe_antisymm x y hxy hyx
    exact htie x hx' y hy' hs hlen
  rw [find_sensitive_text, find_sensitive_text, heq]

theorem c3_order_independent_witness :
    ([("ssn", ssnCat), ("email", emailCat)] : List (String × SensitiveCategory)).Perm
      [("email", emailCat), ("ssn", ssnCat)] ∧
    find_sensitive_text ⟨[("ssn", ssnCat), ("email", emailCat)], []⟩ "123-45-6789".data =
      find_sensitive_text ⟨[("email", emailCat), ("ssn", ssnCat)], []⟩ "123-45-6789".data := by
  refine ⟨List.Perm.swap _ _ _, ?_⟩
  exact c3_order_independent _ _ _ _ (List.Perm.swap _ _ _) (by decide)

end Redact


